import Mathlib

/-!
Shallow embedding of the Synacor Challenge VM interpreter (`vm/vm.go`).

Machine words are Go `uint16` values, modelled as `Nat` with explicit
`% 65536` (`w16`) applied exactly where Go performs 16-bit arithmetic.
Memory is a 32768-word slice; indexing it with a value `≥ 32768` is a Go
runtime panic, as is indexing the 8-element register array with an index
`≥ 8`, dividing by zero, and asserting `nil.(uint16)` after popping an
empty stack.  Panics are modelled as a distinct terminal outcome, separate
from the `error` values the handlers return to the run loop.
-/

/-- Go `uint16` arithmetic: reduce modulo 2^16. -/
def w16 (n : Nat) : Nat := n % 65536

/-- Go runtime panics the interpreter can hit. -/
inductive PanicKind where
  | indexOutOfRange
  | divByZero
  | nilInterface
deriving DecidableEq

/-- The `error` values returned by the instruction handlers (`vm.go`):
`ErrorHalt`, the `set` handler's invalid-register error, and the `ret`
handler's empty-stack error. -/
inductive VMError where
  | halt
  | invalidRegister
  | stackUnderflow
deriving DecidableEq

/-- Interpreter state (`Machine` struct in `vm.go`): a 32768-word memory
(total function on addresses; only `[0,32767]` is ever accessed without a
panic), the 8-register file (only indices `[0,7]` are accessed without a
panic), the unbounded stack, and the instruction pointer.  `input` models
the stdin byte stream consumed by `in`; `output` collects the code points
printed by `out`. -/
structure Machine where
  memory : Nat → Nat
  registers : Nat → Nat
  stack : List Nat
  ip : Nat
  input : List Nat
  output : List Nat

/-- Result of executing one instruction: continue with a new state
(`next`, handler returned `nil`), a returned `error` value, a Go runtime
panic, or the `log.Fatal` (process exit) taken on an unknown opcode. -/
inductive StepResult where
  | next (m : Machine)
  | err (e : VMError)
  | panic (k : PanicKind)
  | fatalExit

/-- A Go expression that may panic. -/
abbrev Res (α : Type) : Type := Except PanicKind α

/-- Pointwise update of a function, modelling `arr[i] = v`. -/
def updf (f : Nat → Nat) (i v : Nat) : Nat → Nat :=
  fun j => if j = i then v else f j

/-- Reading `m.memory[a]`: the slice has length 32768, so an index `≥ 32768`
panics. -/
def memRead (m : Machine) (a : Nat) : Res Nat :=
  if a < 32768 then .ok (m.memory a) else .error .indexOutOfRange

/-- Propagate a panic out of a read used inside another expression. -/
def bindE (r : Res Nat) (k : Nat → Res Nat) : Res Nat :=
  match r with
  | .error p => .error p
  | .ok v => k v

/-- Function `Machine.getVal` (vm.go:505): read-resolve the word at `loc`.  A word
`≥ 32768` (`isReg`) denotes register `word % 32768`; indexing
`m.registers` out of `[0,7]` panics. -/
def getVal (m : Machine) (loc : Nat) : Res Nat :=
  bindE (memRead m loc) fun val =>
    if 32768 ≤ val then
      if val % 32768 < 8 then .ok (m.registers (val % 32768))
      else .error .indexOutOfRange
    else .ok val

/-- Function `Machine.setVal` (vm.go:513): write-resolve destination `loc`.  A
destination `≥ 32768` writes register `loc % 32768` (panicking when the
index exceeds 7); otherwise it writes memory directly. -/
def setVal (m : Machine) (loc val : Nat) : Res Machine :=
  if 32768 ≤ loc then
    if loc % 32768 < 8 then
      .ok { m with registers := updf m.registers (loc % 32768) val }
    else .error .indexOutOfRange
  else .ok { m with memory := updf m.memory loc val }

/-- Sequence a panicking read into a step. -/
def bindR (r : Res Nat) (k : Nat → StepResult) : StepResult :=
  match r with
  | .error p => .panic p
  | .ok v => k v

/-- Sequence a panicking write into a step. -/
def bindM (r : Res Machine) (k : Machine → StepResult) : StepResult :=
  match r with
  | .error p => .panic p
  | .ok m => k m

/-- Value stored by `add` (vm.go:290): `(a+b)%maxSize` in `uint16`. -/
def addVal (a b : Nat) : Nat := w16 (a + b) % 32768

/-- Value stored by `mult` (vm.go:309): `(a*b)%maxSize` in `uint16`;
the product first wraps at 2^16. -/
def multVal (a b : Nat) : Nat := w16 (a * b) % 32768

/-- Value stored by `not` (vm.go:383-385): `a <<= 1; a = ^a; a >>= 1` in
`uint16`; `^` is 16-bit complement, i.e. xor with 65535. -/
def notVal (a : Nat) : Nat := (w16 (a * 2) ^^^ 65535) / 2

/-- Opcode 1 (vm.go:122): `set`.  The only handler that bounds-checks its
register index, erroring (not panicking) when `idx > 7`. -/
def Machine.set (m : Machine) : StepResult :=
  bindR (memRead m (w16 (m.ip + 1))) fun w =>
    if w % 32768 > 7 then .err .invalidRegister
    else
      bindR (getVal m (w16 (m.ip + 2))) fun val =>
        .next { m with registers := updf m.registers (w % 32768) val,
                       ip := w16 (m.ip + 3) }

/-- Opcode 2 (vm.go:149): `push`. -/
def Machine.push (m : Machine) : StepResult :=
  bindR (getVal m (w16 (m.ip + 1))) fun val =>
    .next { m with stack := val :: m.stack, ip := w16 (m.ip + 2) }

/-- Opcode 3 (vm.go:163): `pop`.  `stack.Pop()` on an empty stack returns
`nil` and the subsequent `val.(uint16)` type assertion panics. -/
def Machine.pop (m : Machine) : StepResult :=
  bindR (memRead m (w16 (m.ip + 1))) fun dest =>
    match m.stack with
    | [] => .panic .nilInterface
    | v :: rest =>
      bindM (setVal { m with stack := rest } dest v) fun m1 =>
        .next { m1 with ip := w16 (m1.ip + 2) }

/-- Opcode 4 (vm.go:179): `eq`. -/
def Machine.eq (m : Machine) : StepResult :=
  bindR (memRead m (w16 (m.ip + 1))) fun dest =>
    bindR (getVal m (w16 (m.ip + 2))) fun a =>
      bindR (getVal m (w16 (m.ip + 3))) fun b =>
        bindM (setVal m dest (if a = b then 1 else 0)) fun m1 =>
          .next { m1 with ip := w16 (m1.ip + 4) }

/-- Opcode 5 (vm.go:202): `gt`. -/
def Machine.gt (m : Machine) : StepResult :=
  bindR (memRead m (w16 (m.ip + 1))) fun dest =>
    bindR (getVal m (w16 (m.ip + 2))) fun a =>
      bindR (getVal m (w16 (m.ip + 3))) fun b =>
        bindM (setVal m dest (if a > b then 1 else 0)) fun m1 =>
          .next { m1 with ip := w16 (m1.ip + 4) }

/-- Opcode 6 (vm.go:225): `jump`.  Note: the handler reads the RAW operand
word (`m.memory[m.ip+1]`) and assigns it to `ip` without `getVal`
resolution. -/
def Machine.jump (m : Machine) : StepResult :=
  bindR (memRead m (w16 (m.ip + 1))) fun dest =>
    .next { m with ip := dest }

/-- Opcode 7 (vm.go:238): `jt`. -/
def Machine.jt (m : Machine) : StepResult :=
  bindR (getVal m (w16 (m.ip + 1))) fun val =>
    bindR (getVal m (w16 (m.ip + 2))) fun dest =>
      if val ≠ 0 then .next { m with ip := dest }
      else .next { m with ip := w16 (m.ip + 3) }

/-- Opcode 8 (vm.go:257): `jf`. -/
def Machine.jf (m : Machine) : StepResult :=
  bindR (getVal m (w16 (m.ip + 1))) fun val =>
    bindR (getVal m (w16 (m.ip + 2))) fun dest =>
      if val = 0 then .next { m with ip := dest }
      else .next { m with ip := w16 (m.ip + 3) }

/-- Opcode 9 (vm.go:276): `add`. -/
def Machine.add (m : Machine) : StepResult :=
  bindR (memRead m (w16 (m.ip + 1))) fun dest =>
    bindR (getVal m (w16 (m.ip + 2))) fun a =>
      bindR (getVal m (w16 (m.ip + 3))) fun b =>
        bindM (setVal m dest (addVal a b)) fun m1 =>
          .next { m1 with ip := w16 (m1.ip + 4) }

/-- Opcode 10 (vm.go:295): `mult`. -/
def Machine.mult (m : Machine) : StepResult :=
  bindR (memRead m (w16 (m.ip + 1))) fun dest =>
    bindR (getVal m (w16 (m.ip + 2))) fun a =>
      bindR (getVal m (w16 (m.ip + 3))) fun b =>
        bindM (setVal m dest (multVal a b)) fun m1 =>
          .next { m1 with ip := w16 (m1.ip + 4) }

/-- Opcode 11 (vm.go:314): `mod`.  `a % b` is Go integer remainder, which
panics when `b = 0`; there is no zero check. -/
def Machine.mod (m : Machine) : StepResult :=
  bindR (memRead m (w16 (m.ip + 1))) fun dest =>
    bindR (getVal m (w16 (m.ip + 2))) fun a =>
      bindR (getVal m (w16 (m.ip + 3))) fun b =>
        if b = 0 then .panic .divByZero
        else
          bindM (setVal m dest (a % b)) fun m1 =>
            .next { m1 with ip := w16 (m1.ip + 4) }

/-- Opcode 12 (vm.go:333): `and`. -/
def Machine.and (m : Machine) : StepResult :=
  bindR (memRead m (w16 (m.ip + 1))) fun dest =>
    bindR (getVal m (w16 (m.ip + 2))) fun a =>
      bindR (getVal m (w16 (m.ip + 3))) fun b =>
        bindM (setVal m dest (a &&& b)) fun m1 =>
          .next { m1 with ip := w16 (m1.ip + 4) }

/-- Opcode 13 (vm.go:352): `or`. -/
def Machine.or (m : Machine) : StepResult :=
  bindR (memRead m (w16 (m.ip + 1))) fun dest =>
    bindR (getVal m (w16 (m.ip + 2))) fun a =>
      bindR (getVal m (w16 (m.ip + 3))) fun b =>
        bindM (setVal m dest (a ||| b)) fun m1 =>
          .next { m1 with ip := w16 (m1.ip + 4) }

/-- Opcode 14 (vm.go:371): `not`. -/
def Machine.not (m : Machine) : StepResult :=
  bindR (memRead m (w16 (m.ip + 1))) fun dest =>
    bindR (getVal m (w16 (m.ip + 2))) fun a =>
      bindM (setVal m dest (notVal a)) fun m1 =>
        .next { m1 with ip := w16 (m1.ip + 3) }

/-- Opcode 15 (vm.go:391): `rmem`.  The value copied to the destination is
the RAW word `m.memory[getVal(ip+2)]`, with no read resolution applied to
it. -/
def Machine.rmem (m : Machine) : StepResult :=
  bindR (memRead m (w16 (m.ip + 1))) fun dest =>
    bindR (getVal m (w16 (m.ip + 2))) fun addr =>
      bindR (memRead m addr) fun a =>
        bindM (setVal m dest a) fun m1 =>
          .next { m1 with ip := w16 (m1.ip + 3) }

/-- Opcode 16 (vm.go:408): `wmem`.  `m.memory[dest] = a` panics when the
resolved destination is `≥ 32768`. -/
def Machine.wmem (m : Machine) : StepResult :=
  bindR (getVal m (w16 (m.ip + 1))) fun dest =>
    bindR (getVal m (w16 (m.ip + 2))) fun a =>
      if dest < 32768 then
        .next { m with memory := updf m.memory dest a, ip := w16 (m.ip + 3) }
      else .panic .indexOutOfRange

/-- Opcode 17 (vm.go:425): `call`: push `ip + 2`, jump to the resolved
operand. -/
def Machine.call (m : Machine) : StepResult :=
  bindR (getVal m (w16 (m.ip + 1))) fun dest =>
    .next { m with stack := w16 (m.ip + 2) :: m.stack, ip := dest }

/-- Opcode 18 (vm.go:439): `ret`: explicitly checks for an empty stack and
returns an error (`StackUnderflow`) instead of popping. -/
def Machine.ret (m : Machine) : StepResult :=
  match m.stack with
  | [] => .err .stackUnderflow
  | dest :: rest => .next { m with ip := dest, stack := rest }

/-- Opcode 19 (vm.go:461): `out`. -/
def Machine.out (m : Machine) : StepResult :=
  bindR (getVal m (w16 (m.ip + 1))) fun val =>
    .next { m with output := m.output ++ [val], ip := w16 (m.ip + 2) }

/-- Opcode 20 (vm.go:475): `in`, named `inChar` here because `in` is a
Lean keyword.  One byte is consumed from stdin (at end of stream Go's
ignored read error leaves the buffer byte 0, modelled by `headD 0`).  When
the byte is 13 (CR) the write to the destination is skipped entirely;
`ip` advances either way. -/
def Machine.inChar (m : Machine) : StepResult :=
  bindR (memRead m (w16 (m.ip + 1))) fun dest =>
    if m.input.headD 0 ≠ 13 then
      bindM (setVal { m with input := m.input.tail } dest (m.input.headD 0))
        fun m1 => .next { m1 with ip := w16 (m1.ip + 2) }
    else .next { m with input := m.input.tail, ip := w16 (m.ip + 2) }

/-- Opcode 21 (vm.go:494): `noop`. -/
def Machine.noop (m : Machine) : StepResult :=
  .next { m with ip := w16 (m.ip + 1) }

/-- The dispatch switch of `Machine.next` (vm.go:68-113).  An opcode
outside 0..21 hits `log.Fatal` (process exit). -/
def dispatch (op : Nat) (m : Machine) : StepResult :=
    if op = 0 then .err .halt
    else if op = 1 then m.set
    else if op = 2 then m.push
    else if op = 3 then m.pop
    else if op = 4 then m.eq
    else if op = 5 then m.gt
    else if op = 6 then m.jump
    else if op = 7 then m.jt
    else if op = 8 then m.jf
    else if op = 9 then m.add
    else if op = 10 then m.mult
    else if op = 11 then m.mod
    else if op = 12 then m.and
    else if op = 13 then m.or
    else if op = 14 then m.not
    else if op = 15 then m.rmem
    else if op = 16 then m.wmem
    else if op = 17 then m.call
    else if op = 18 then m.ret
    else if op = 19 then m.out
    else if op = 20 then m.inChar
    else if op = 21 then m.noop
    else .fatalExit

/-- Function `Machine.next` (vm.go:67): fetch the opcode at `ip` (a panic when `ip`
has drifted `≥ 32768`) and dispatch on it. -/
def Machine.next (m : Machine) : StepResult :=
  bindR (memRead m m.ip) fun op => dispatch op m

/-- One successful interpreter step (handler returned `nil`). -/
def StepsTo (m m' : Machine) : Prop := Machine.next m = StepResult.next m'

/-- Reflexive-transitive closure of `StepsTo`: the states reachable by
executing instructions. -/
def Reachable (m m' : Machine) : Prop := Relation.ReflTransGen StepsTo m m'

/-- Construction `NewMachine` followed by an image load (vm.go:33, vm.go:38): zeroed
registers, empty stack, `ip = 0`, memory as loaded. -/
def loaded (mem : Nat → Nat) : Machine :=
  { memory := mem, registers := fun _ => 0, stack := [], ip := 0,
    input := [], output := [] }

/-! ## Basic unfolding lemmas -/

theorem memRead_in_range {m : Machine} {a : Nat} (h : a < 32768) :
    memRead m a = .ok (m.memory a) := by
  unfold memRead; rw [if_pos h]

theorem next_dispatch {m : Machine} (hip : m.ip < 32768) :
    Machine.next m = dispatch (m.memory m.ip) m := by
  unfold Machine.next
  rw [memRead_in_range hip]
  rfl

theorem w16_small {n : Nat} (h : n < 65536) : w16 n = n := Nat.mod_eq_of_lt h

/-! ## C5: add / mult arithmetic -/

/-- C5: for words `a, b < 32768`, the value stored by `add` is exactly
`(a+b) mod 32768` and the value stored by `mult` is exactly
`(a*b) mod 32768` — the intermediate 16-bit wraparound of the Go `uint16`
product does not change the result — and both lie in `[0,32767]`. -/
theorem add_mult_exact (a b : Nat) (ha : a < 32768) (hb : b < 32768) :
    addVal a b = (a + b) % 32768 ∧ multVal a b = (a * b) % 32768 ∧
    addVal a b < 32768 ∧ multVal a b < 32768 := by
  refine ⟨?_, ?_, ?_, ?_⟩
  · unfold addVal
    rw [w16_small (by omega)]
  · unfold multVal w16
    rw [Nat.mod_mod_of_dvd _ (by norm_num : (32768:Nat) ∣ 65536)]
  · exact Nat.mod_lt _ (by norm_num)
  · exact Nat.mod_lt _ (by norm_num)

/-- Concrete instance of `add_mult_exact` at `a = b = 30000` (large enough
for the 16-bit product wraparound to occur). -/
theorem add_mult_exact_witness :
    30000 < 32768 ∧
    (addVal 30000 30000 = (30000 + 30000) % 32768 ∧
     multVal 30000 30000 = (30000 * 30000) % 32768 ∧
     addVal 30000 30000 < 32768 ∧ multVal 30000 30000 < 32768) :=
  ⟨by norm_num, add_mult_exact 30000 30000 (by norm_num) (by norm_num)⟩

/-! ## C6: ret on an empty stack -/

/-- C6: executing `ret` (opcode 18) on an empty stack returns the
handler's empty-stack `error` value (`StackUnderflow`) to the run loop —
an error result, not a panic. -/
theorem ret_empty_stack_underflow (m : Machine)
    (hip : m.ip < 32768) (hop : m.memory m.ip = 18) (hstk : m.stack = []) :
    Machine.next m = .err .stackUnderflow := by
  rw [next_dispatch hip, hop]
  show Machine.ret m = _
  unfold Machine.ret
  rw [hstk]

/-- The machine whose image is the single instruction `ret`. -/
def retMachine : Machine := loaded (fun a => if a = 0 then 18 else 0)

/-- Concrete instance of `ret_empty_stack_underflow`. -/
theorem ret_empty_stack_underflow_witness :
    Machine.next retMachine = .err .stackUnderflow :=
  ret_empty_stack_underflow retMachine (by decide) rfl rfl

/-! ## C8: not is the 15-bit complement and is self-inverse -/

/-- Modelled from the spec: "write(a) = bitwise complement of value(b)
restricted to 15 bits: `(~value(b)) & 0x7FFF`", with `~` the 16-bit
complement (xor with 65535). -/
def specNot (x : Nat) : Nat := (x ^^^ 65535) &&& 32767

theorem notVal_eq_xor {x : Nat} (hx : x < 32768) : notVal x = x ^^^ 32767 := by
  unfold notVal
  rw [w16_small (by omega)]
  refine Nat.eq_of_testBit_eq fun i => ?_
  rw [Nat.testBit_div_two, Nat.testBit_xor, Nat.testBit_xor]
  have h2 : (x * 2).testBit (i + 1) = x.testBit i := by
    rw [← Nat.testBit_div_two, Nat.mul_div_cancel _ (by norm_num)]
  rw [h2, (by norm_num : (65535 : Nat) = 2 ^ 16 - 1),
    (by norm_num : (32767 : Nat) = 2 ^ 15 - 1),
    Nat.testBit_two_pow_sub_one, Nat.testBit_two_pow_sub_one]
  congr 1
  simp only [decide_eq_decide]
  omega

theorem specNot_eq_xor {x : Nat} (hx : x < 32768) : specNot x = x ^^^ 32767 := by
  unfold specNot
  refine Nat.eq_of_testBit_eq fun i => ?_
  rw [Nat.testBit_and, Nat.testBit_xor, Nat.testBit_xor,
    (by norm_num : (65535 : Nat) = 2 ^ 16 - 1),
    (by norm_num : (32767 : Nat) = 2 ^ 15 - 1),
    Nat.testBit_two_pow_sub_one, Nat.testBit_two_pow_sub_one]
  by_cases hi : i < 15
  · simp [hi, show i < 16 by omega]
  · have hbit : x.testBit i = false :=
      Nat.testBit_lt_two_pow
        (lt_of_lt_of_le hx (by
          calc (32768:Nat) = 2 ^ 15 := by norm_num
          _ ≤ 2 ^ i := Nat.pow_le_pow_right (by norm_num) (by omega)))
    simp [hbit, hi]

theorem xor_32767_lt {x : Nat} (hx : x < 32768) : x ^^^ 32767 < 32768 := by
  rw [(by norm_num : (32768:Nat) = 2 ^ 15)] at hx ⊢
  exact Nat.xor_lt_two_pow hx (by norm_num)

/-- C8: for every word `x < 32768` the value stored by `not` equals the
spec's `(~x) & 0x7FFF`, and applying the operation twice gives back `x`. -/
theorem not_fifteen_bit_involutive (x : Nat) (hx : x < 32768) :
    notVal x = specNot x ∧ notVal (notVal x) = x := by
  constructor
  · rw [notVal_eq_xor hx, specNot_eq_xor hx]
  · rw [notVal_eq_xor hx, notVal_eq_xor (xor_32767_lt hx), Nat.xor_assoc,
      Nat.xor_self, Nat.xor_zero]

/-- Concrete instance of `not_fifteen_bit_involutive` at `x = 12345`. -/
theorem not_fifteen_bit_involutive_witness :
    12345 < 32768 ∧
    (notVal 12345 = specNot 12345 ∧ notVal (notVal 12345) = 12345) :=
  ⟨by norm_num, not_fifteen_bit_involutive 12345 (by norm_num)⟩

/-! ## More unfolding lemmas -/

theorem bindR_ok {v : Nat} {k : Nat → StepResult} : bindR (.ok v) k = k v := rfl

theorem bindM_ok {m : Machine} {k : Machine → StepResult} :
    bindM (.ok m) k = k m := rfl

/-- Fetching the next opcode with `ip ≥ 32768` indexes the memory slice
out of range. -/
theorem next_ip_oob {m : Machine} (h : 32768 ≤ m.ip) :
    Machine.next m = .panic .indexOutOfRange := by
  unfold Machine.next memRead
  rw [if_neg (by omega)]
  rfl

/-! ## C1: mod with a zero divisor -/

/-- C1: executing `mod` (opcode 11) when the second value operand resolves
to 0 reaches Go's `a % b` with `b = 0`, a runtime division-by-zero panic —
not an error result returned to the caller. -/
theorem mod_zero_divisor_panics (m : Machine) (a : Nat)
    (hip : m.ip + 3 < 32768)
    (hop : m.memory m.ip = 11)
    (ha : getVal m (m.ip + 2) = .ok a)
    (hb : getVal m (m.ip + 3) = .ok 0) :
    Machine.next m = .panic .divByZero := by
  rw [next_dispatch (by omega), hop]
  show Machine.mod m = _
  unfold Machine.mod
  simp only [w16_small (show m.ip + 1 < 65536 by omega),
    w16_small (show m.ip + 2 < 65536 by omega),
    w16_small (show m.ip + 3 < 65536 by omega),
    memRead_in_range (show m.ip + 1 < 32768 by omega), bindR_ok, ha, hb]
  simp

/-- The machine whose image is `mod 0 7 0` at address 0 (divisor literal
0). -/
def modZeroMachine : Machine :=
  loaded (fun x => if x = 0 then 11 else if x = 1 then 0 else
    if x = 2 then 7 else 0)

/-- Concrete instance of `mod_zero_divisor_panics`. -/
theorem mod_zero_divisor_panics_witness :
    Machine.next modZeroMachine = .panic .divByZero :=
  mod_zero_divisor_panics modZeroMachine 7 (by decide) rfl rfl rfl

/-! ## C2: jmp takes the raw operand word -/

/-- C2: `jmp` (opcode 6) assigns the RAW operand word to `ip` without
read resolution; when that word is `≥ 32768` the new `ip` is the raw word
itself (not the contents of register `raw mod 32768`), and the very next
fetch panics with an out-of-range memory index. -/
theorem jump_uses_raw_operand (m : Machine)
    (hip : m.ip + 1 < 32768) (hop : m.memory m.ip = 6) :
    Machine.next m = .next { m with ip := m.memory (m.ip + 1) } ∧
    (32768 ≤ m.memory (m.ip + 1) →
      Machine.next { m with ip := m.memory (m.ip + 1) } =
        .panic .indexOutOfRange) := by
  constructor
  · rw [next_dispatch (by omega), hop]
    show Machine.jump m = _
    unfold Machine.jump
    simp only [w16_small (show m.ip + 1 < 65536 by omega),
      memRead_in_range (show m.ip + 1 < 32768 by omega), bindR_ok]
  · intro hraw
    exact next_ip_oob hraw

/-- A machine executing `jmp 32768` with register 0 holding 100: the claim
predicts `ip = 100` afterwards, the code produces `ip = 32768`. -/
def jumpRawMachine : Machine :=
  { memory := fun x => if x = 0 then 6 else if x = 1 then 32768 else 0,
    registers := updf (fun _ => 0) 0 100, stack := [], ip := 0,
    input := [], output := [] }

/-- Concrete instance of `jump_uses_raw_operand`. -/
theorem jump_uses_raw_operand_witness :
    Machine.next jumpRawMachine = .next { jumpRawMachine with ip := 32768 } ∧
    Machine.next { jumpRawMachine with ip := 32768 } =
      .panic .indexOutOfRange :=
  ⟨(jump_uses_raw_operand jumpRawMachine (by decide) rfl).1,
   (jump_uses_raw_operand jumpRawMachine (by decide) rfl).2 (by decide)⟩

/-! ## C3: destination register index ≥ 8 -/

/-- C3: with a raw destination word `≥ 32768` reducing (mod 32768) to a
register index `≥ 8`, only `set` (opcode 1) returns the guarded
invalid-register error; every other destination instruction — here `add`
(opcode 9) as representative — reaches the unchecked `m.registers[idx]`
write in `setVal` and panics with an out-of-range array index. -/
theorem bad_register_destination (m : Machine)
    (hip : m.ip + 3 < 32768)
    (hdest : 32768 ≤ m.memory (m.ip + 1))
    (hidx : 8 ≤ m.memory (m.ip + 1) % 32768) :
    (m.memory m.ip = 1 → Machine.next m = .err .invalidRegister) ∧
    (m.memory m.ip = 9 → ∀ a b, getVal m (m.ip + 2) = .ok a →
      getVal m (m.ip + 3) = .ok b →
      Machine.next m = .panic .indexOutOfRange) := by
  constructor
  · intro hop
    rw [next_dispatch (by omega), hop]
    show Machine.set m = _
    unfold Machine.set
    simp only [w16_small (show m.ip + 1 < 65536 by omega),
      memRead_in_range (show m.ip + 1 < 32768 by omega), bindR_ok]
    rw [if_pos (by omega)]
  · intro hop a b ha hb
    rw [next_dispatch (by omega), hop]
    show Machine.add m = _
    unfold Machine.add
    simp only [w16_small (show m.ip + 1 < 65536 by omega),
      w16_small (show m.ip + 2 < 65536 by omega),
      w16_small (show m.ip + 3 < 65536 by omega),
      memRead_in_range (show m.ip + 1 < 32768 by omega), bindR_ok, ha, hb]
    unfold setVal
    rw [if_pos hdest, if_neg (by omega)]
    rfl

/-- An image with `set` whose destination word 32776 reduces to register index 8. -/
def setBadRegMachine : Machine :=
  loaded (fun x => if x = 0 then 1 else if x = 1 then 32776 else 0)

/-- An image with `add` whose destination word 32776 reduces to register index 8. -/
def addBadRegMachine : Machine :=
  loaded (fun x => if x = 0 then 9 else if x = 1 then 32776 else
    if x = 2 then 5 else if x = 3 then 7 else 0)

/-- Concrete instance of `bad_register_destination`. -/
theorem bad_register_destination_witness :
    Machine.next setBadRegMachine = .err .invalidRegister ∧
    Machine.next addBadRegMachine = .panic .indexOutOfRange :=
  ⟨(bad_register_destination setBadRegMachine (by decide) (by decide)
      (by decide)).1 rfl,
   (bad_register_destination addBadRegMachine (by decide) (by decide)
      (by decide)).2 rfl 5 7 rfl rfl⟩

/-! ## C4: pop on an empty stack -/

/-- C4: executing `pop` (opcode 3) with an empty stack makes
`stack.Pop()` return `nil`, and the `val.(uint16)` type assertion panics —
the handler has no empty-stack check and no error result is returned. -/
theorem pop_empty_stack_panics (m : Machine)
    (hip : m.ip + 1 < 32768) (hop : m.memory m.ip = 3) (hstk : m.stack = []) :
    Machine.next m = .panic .nilInterface := by
  rw [next_dispatch (by omega), hop]
  show Machine.pop m = _
  unfold Machine.pop
  simp only [w16_small (show m.ip + 1 < 65536 by omega),
    memRead_in_range (show m.ip + 1 < 32768 by omega), bindR_ok, hstk]

/-- The machine whose image is the single instruction `pop 0`. -/
def popEmptyMachine : Machine :=
  loaded (fun x => if x = 0 then 3 else 0)

/-- Concrete instance of `pop_empty_stack_panics`. -/
theorem pop_empty_stack_panics_witness :
    Machine.next popEmptyMachine = .panic .nilInterface :=
  pop_empty_stack_panics popEmptyMachine (by decide) rfl rfl

/-! ## C7: call immediately followed by ret -/

/-- C7: from `ip = p`, a `call` whose target `t` holds a `ret` first
pushes `p + 2` and jumps to `t`; the `ret` then pops it back, so after the
two steps `ip = p + 2` (the instruction directly after the call) and the
stack is exactly the stack before the call. -/
theorem call_then_ret_roundtrip (m : Machine) (t : Nat)
    (hip : m.ip + 1 < 32768)
    (hop : m.memory m.ip = 17)
    (hval : getVal m (m.ip + 1) = .ok t)
    (ht : t < 32768)
    (hret : m.memory t = 18) :
    ∃ m1 m2, Machine.next m = .next m1 ∧ Machine.next m1 = .next m2 ∧
      m2.ip = m.ip + 2 ∧ m2.stack = m.stack := by
  refine ⟨{ m with stack := w16 (m.ip + 2) :: m.stack, ip := t },
          { m with ip := w16 (m.ip + 2) }, ?_, ?_, ?_, ?_⟩
  · rw [next_dispatch (by omega), hop]
    show Machine.call m = _
    unfold Machine.call
    simp only [w16_small (show m.ip + 1 < 65536 by omega), hval, bindR_ok]
  · rw [next_dispatch
      (show ({ m with stack := w16 (m.ip + 2) :: m.stack, ip := t } :
        Machine).ip < 32768 from ht)]
    show dispatch (m.memory t) _ = _
    rw [hret]
    rfl
  · exact w16_small (by omega)
  · rfl

/-- Image with `call 5` at address 0; address 5 holds `ret`. -/
def callRetMachine : Machine :=
  loaded (fun x => if x = 0 then 17 else if x = 1 then 5 else
    if x = 5 then 18 else 0)

/-- Concrete instance of `call_then_ret_roundtrip`. -/
theorem call_then_ret_roundtrip_witness :
    ∃ m1 m2, Machine.next callRetMachine = .next m1 ∧
      Machine.next m1 = .next m2 ∧
      m2.ip = callRetMachine.ip + 2 ∧ m2.stack = callRetMachine.stack :=
  call_then_ret_roundtrip callRetMachine 5 (by decide) rfl rfl (by decide) rfl

/-! ## C9: the in instruction and carriage returns -/

/-- C9: executing `in` (opcode 20) consumes one input byte.  A byte of 13
is swallowed: the destination is not written and only `ip` advances by 2.
Any other byte `b` is committed to the destination through write
resolution (`setVal`), and `ip` advances by 2. -/
theorem in_cr_swallowed_else_written (m : Machine) (d b : Nat)
    (rest : List Nat)
    (hip : m.ip + 1 < 32768)
    (hop : m.memory m.ip = 20)
    (hd : m.memory (m.ip + 1) = d)
    (hin : m.input = b :: rest) :
    (b = 13 →
      Machine.next m = .next { m with input := rest, ip := m.ip + 2 }) ∧
    (b ≠ 13 → ∀ m1, setVal { m with input := rest } d b = .ok m1 →
      Machine.next m = .next { m1 with ip := m.ip + 2 }) := by
  have hfetch : Machine.next m = Machine.inChar m := by
    rw [next_dispatch (by omega), hop]
    rfl
  constructor
  · intro h13
    subst h13
    rw [hfetch]
    unfold Machine.inChar
    simp only [w16_small (show m.ip + 1 < 65536 by omega),
      memRead_in_range (show m.ip + 1 < 32768 by omega), bindR_ok, hd, hin,
      List.headD_cons, List.tail_cons]
    rw [if_neg (by decide)]
    show StepResult.next { m with input := rest, ip := w16 (m.ip + 2) } = _
    rw [w16_small (by omega)]
  · intro h13 m1 hset
    rw [hfetch]
    unfold Machine.inChar
    simp only [w16_small (show m.ip + 1 < 65536 by omega),
      memRead_in_range (show m.ip + 1 < 32768 by omega), bindR_ok, hd, hin,
      List.headD_cons, List.tail_cons]
    rw [if_pos h13, hset, bindM_ok]
    have hip1 : m1.ip = m.ip := by
      unfold setVal at hset
      split at hset
      · split at hset
        · cases hset; rfl
        · injection hset
      · cases hset; rfl
    rw [hip1, w16_small (by omega)]

/-- Machine with `in` writing register 0, fed a lone carriage return. -/
def inCRMachine : Machine :=
  { memory := fun x => if x = 0 then 20 else if x = 1 then 32768 else 0,
    registers := fun _ => 0, stack := [], ip := 0, input := [13],
    output := [] }

/-- Machine with `in` writing register 0, fed the byte 65. -/
def inAMachine : Machine :=
  { memory := fun x => if x = 0 then 20 else if x = 1 then 32768 else 0,
    registers := fun _ => 0, stack := [], ip := 0, input := [65],
    output := [] }

/-- State of `inAMachine` after `setVal` commits byte 65 to register 0. -/
def inAMachineWritten : Machine :=
  { memory := fun x => if x = 0 then 20 else if x = 1 then 32768 else 0,
    registers := updf (fun _ => 0) 0 65, stack := [], ip := 0, input := [],
    output := [] }

/-- Concrete instance of `in_cr_swallowed_else_written`: byte 13 leaves
register 0 stale, byte 65 lands in register 0; `ip` becomes 2 either
way. -/
theorem in_cr_swallowed_else_written_witness :
    Machine.next inCRMachine =
      .next { inCRMachine with input := [], ip := 2 } ∧
    Machine.next inAMachine = .next { inAMachineWritten with ip := 2 } :=
  ⟨(in_cr_swallowed_else_written inCRMachine 32768 13 [] (by decide) rfl rfl
      rfl).1 rfl,
   (in_cr_swallowed_else_written inAMachine 32768 65 [] (by decide) rfl rfl
      rfl).2 (by decide) inAMachineWritten rfl⟩

/-! ## C10: register range invariant -/

/-- Well-formedness: every stored quantity fits in a Go `uint16`.  This is
what the `uint16` typing of `Machine` guarantees in Go; the image loader
(vm.go:50) only ever produces words `< 65536`, and stdin bytes are
`< 256`. -/
def WF (m : Machine) : Prop :=
  (∀ a, m.memory a < 65536) ∧ (∀ i, m.registers i < 65536) ∧
  (∀ v ∈ m.stack, v < 65536) ∧ (∀ b ∈ m.input, b < 65536)

theorem w16_lt (n : Nat) : w16 n < 65536 := Nat.mod_lt _ (by norm_num)

theorem addVal_lt (a b : Nat) : addVal a b < 65536 :=
  lt_of_lt_of_le (Nat.mod_lt _ (by norm_num)) (by norm_num)

theorem multVal_lt (a b : Nat) : multVal a b < 65536 :=
  lt_of_lt_of_le (Nat.mod_lt _ (by norm_num)) (by norm_num)

theorem notVal_lt (a : Nat) : notVal a < 65536 := by
  unfold notVal
  exact Nat.lt_of_le_of_lt (Nat.div_le_self _ _)
    (Nat.xor_lt_two_pow (show w16 (a * 2) < 2 ^ 16 from w16_lt _)
      (show 65535 < 2 ^ 16 by norm_num))

theorem updf_lt {f : Nat → Nat} (hf : ∀ j, f j < 65536) {v : Nat}
    (hv : v < 65536) (i : Nat) : ∀ j, updf f i v j < 65536 := by
  intro j
  unfold updf
  split
  · exact hv
  · exact hf j

theorem stack_cons_lt {s : List Nat} (hs : ∀ x ∈ s, x < 65536) {v : Nat}
    (hv : v < 65536) : ∀ x ∈ v :: s, x < 65536 := by
  intro x hx
  rcases List.mem_cons.mp hx with h | h
  · subst h; exact hv
  · exact hs x h

theorem headD_lt {l : List Nat} (hl : ∀ x ∈ l, x < 65536) :
    l.headD 0 < 65536 := by
  cases l with
  | nil => norm_num
  | cons x xs => exact hl x (List.mem_cons_self x xs)

theorem tail_lt {l : List Nat} (hl : ∀ x ∈ l, x < 65536) :
    ∀ x ∈ l.tail, x < 65536 :=
  fun x hx => hl x (List.mem_of_mem_tail hx)

theorem bindR_next {r : Res Nat} {k : Nat → StepResult} {m' : Machine}
    (h : bindR r k = .next m') : ∃ v, r = .ok v ∧ k v = .next m' := by
  cases r with
  | error p => exact absurd h (by simp [bindR])
  | ok v => exact ⟨v, rfl, h⟩

theorem bindM_next {r : Res Machine} {k : Machine → StepResult}
    {m' : Machine} (h : bindM r k = .next m') :
    ∃ m1, r = .ok m1 ∧ k m1 = .next m' := by
  cases r with
  | error p => exact absurd h (by simp [bindM])
  | ok m1 => exact ⟨m1, rfl, h⟩

theorem memRead_lt {m : Machine} {a v : Nat} (hm : WF m)
    (h : memRead m a = .ok v) : v < 65536 := by
  unfold memRead at h
  split at h
  · cases h; exact hm.1 a
  · exact Except.noConfusion h

theorem bindE_ok {v : Nat} {k : Nat → Res Nat} : bindE (.ok v) k = k v := rfl

theorem getVal_lt {m : Machine} {x v : Nat} (hm : WF m)
    (h : getVal m x = .ok v) : v < 65536 := by
  unfold getVal at h
  cases hmem : memRead m x with
  | error p => rw [hmem] at h; exact Except.noConfusion h
  | ok val =>
    rw [hmem] at h
    simp only [bindE_ok] at h
    split at h
    · split at h
      · cases h; exact hm.2.1 _
      · exact Except.noConfusion h
    · cases h; exact memRead_lt hm hmem

theorem setVal_wf {m m' : Machine} {d v : Nat} (hm : WF m) (hv : v < 65536)
    (h : setVal m d v = .ok m') : WF m' := by
  unfold setVal at h
  split at h
  · split at h
    · cases h
      exact ⟨hm.1, updf_lt hm.2.1 hv _, hm.2.2.1, hm.2.2.2⟩
    · exact Except.noConfusion h
  · cases h
    exact ⟨updf_lt hm.1 hv _, hm.2.1, hm.2.2.1, hm.2.2.2⟩

theorem set_wf {m m' : Machine} (hm : WF m) (h : Machine.set m = .next m') :
    WF m' := by
  unfold Machine.set at h
  obtain ⟨w, hw, h⟩ := bindR_next h
  split at h
  · exact StepResult.noConfusion h
  · obtain ⟨val, hval, h⟩ := bindR_next h
    injection h with h1
    subst h1
    exact ⟨hm.1, updf_lt hm.2.1 (getVal_lt hm hval) _, hm.2.2.1, hm.2.2.2⟩

theorem push_wf {m m' : Machine} (hm : WF m)
    (h : Machine.push m = .next m') : WF m' := by
  unfold Machine.push at h
  obtain ⟨val, hval, h⟩ := bindR_next h
  injection h with h1
  subst h1
  exact ⟨hm.1, hm.2.1, stack_cons_lt hm.2.2.1 (getVal_lt hm hval), hm.2.2.2⟩

theorem pop_wf {m m' : Machine} (hm : WF m) (h : Machine.pop m = .next m') :
    WF m' := by
  unfold Machine.pop at h
  obtain ⟨dest, hdest, h⟩ := bindR_next h
  cases hstk : m.stack with
  | nil => rw [hstk] at h; exact StepResult.noConfusion h
  | cons v rest =>
    rw [hstk] at h
    obtain ⟨m1, hset, h⟩ := bindM_next h
    injection h with h1
    subst h1
    have hm0 : WF { m with stack := rest } :=
      ⟨hm.1, hm.2.1,
       fun x hx => hm.2.2.1 x (by rw [hstk]; exact List.mem_cons_of_mem v hx),
       hm.2.2.2⟩
    show WF m1
    exact setVal_wf hm0 (hm.2.2.1 v (by rw [hstk]; exact List.mem_cons_self v rest)) hset

theorem eq_wf {m m' : Machine} (hm : WF m) (h : Machine.eq m = .next m') :
    WF m' := by
  unfold Machine.eq at h
  obtain ⟨dest, hdest, h⟩ := bindR_next h
  obtain ⟨a, ha, h⟩ := bindR_next h
  obtain ⟨b, hb, h⟩ := bindR_next h
  obtain ⟨m1, hset, h⟩ := bindM_next h
  injection h with h1
  subst h1
  show WF m1
  exact setVal_wf hm (by split <;> norm_num) hset

theorem gt_wf {m m' : Machine} (hm : WF m) (h : Machine.gt m = .next m') :
    WF m' := by
  unfold Machine.gt at h
  obtain ⟨dest, hdest, h⟩ := bindR_next h
  obtain ⟨a, ha, h⟩ := bindR_next h
  obtain ⟨b, hb, h⟩ := bindR_next h
  obtain ⟨m1, hset, h⟩ := bindM_next h
  injection h with h1
  subst h1
  show WF m1
  exact setVal_wf hm (by split <;> norm_num) hset

theorem jump_wf {m m' : Machine} (hm : WF m)
    (h : Machine.jump m = .next m') : WF m' := by
  unfold Machine.jump at h
  obtain ⟨dest, hdest, h⟩ := bindR_next h
  injection h with h1
  subst h1
  exact hm

theorem jt_wf {m m' : Machine} (hm : WF m) (h : Machine.jt m = .next m') :
    WF m' := by
  unfold Machine.jt at h
  obtain ⟨val, hval, h⟩ := bindR_next h
  obtain ⟨dest, hdest, h⟩ := bindR_next h
  split at h <;> (injection h with h1; subst h1; exact hm)

theorem jf_wf {m m' : Machine} (hm : WF m) (h : Machine.jf m = .next m') :
    WF m' := by
  unfold Machine.jf at h
  obtain ⟨val, hval, h⟩ := bindR_next h
  obtain ⟨dest, hdest, h⟩ := bindR_next h
  split at h <;> (injection h with h1; subst h1; exact hm)

theorem add_wf {m m' : Machine} (hm : WF m) (h : Machine.add m = .next m') :
    WF m' := by
  unfold Machine.add at h
  obtain ⟨dest, hdest, h⟩ := bindR_next h
  obtain ⟨a, ha, h⟩ := bindR_next h
  obtain ⟨b, hb, h⟩ := bindR_next h
  obtain ⟨m1, hset, h⟩ := bindM_next h
  injection h with h1
  subst h1
  show WF m1
  exact setVal_wf hm (addVal_lt a b) hset

theorem mult_wf {m m' : Machine} (hm : WF m)
    (h : Machine.mult m = .next m') : WF m' := by
  unfold Machine.mult at h
  obtain ⟨dest, hdest, h⟩ := bindR_next h
  obtain ⟨a, ha, h⟩ := bindR_next h
  obtain ⟨b, hb, h⟩ := bindR_next h
  obtain ⟨m1, hset, h⟩ := bindM_next h
  injection h with h1
  subst h1
  show WF m1
  exact setVal_wf hm (multVal_lt a b) hset

theorem mod_wf {m m' : Machine} (hm : WF m) (h : Machine.mod m = .next m') :
    WF m' := by
  unfold Machine.mod at h
  obtain ⟨dest, hdest, h⟩ := bindR_next h
  obtain ⟨a, ha, h⟩ := bindR_next h
  obtain ⟨b, hb, h⟩ := bindR_next h
  split at h
  · exact StepResult.noConfusion h
  · obtain ⟨m1, hset, h⟩ := bindM_next h
    injection h with h1
    subst h1
    show WF m1
    exact setVal_wf hm
      (Nat.lt_of_le_of_lt (Nat.mod_le a b) (getVal_lt hm ha)) hset

theorem and_wf {m m' : Machine} (hm : WF m) (h : Machine.and m = .next m') :
    WF m' := by
  unfold Machine.and at h
  obtain ⟨dest, hdest, h⟩ := bindR_next h
  obtain ⟨a, ha, h⟩ := bindR_next h
  obtain ⟨b, hb, h⟩ := bindR_next h
  obtain ⟨m1, hset, h⟩ := bindM_next h
  injection h with h1
  subst h1
  show WF m1
  exact setVal_wf hm
    (Nat.and_lt_two_pow a (show b < 2 ^ 16 from getVal_lt hm hb)) hset

theorem or_wf {m m' : Machine} (hm : WF m) (h : Machine.or m = .next m') :
    WF m' := by
  unfold Machine.or at h
  obtain ⟨dest, hdest, h⟩ := bindR_next h
  obtain ⟨a, ha, h⟩ := bindR_next h
  obtain ⟨b, hb, h⟩ := bindR_next h
  obtain ⟨m1, hset, h⟩ := bindM_next h
  injection h with h1
  subst h1
  show WF m1
  exact setVal_wf hm
    (Nat.or_lt_two_pow (show a < 2 ^ 16 from getVal_lt hm ha)
      (show b < 2 ^ 16 from getVal_lt hm hb)) hset

theorem not_wf {m m' : Machine} (hm : WF m) (h : Machine.not m = .next m') :
    WF m' := by
  unfold Machine.not at h
  obtain ⟨dest, hdest, h⟩ := bindR_next h
  obtain ⟨a, ha, h⟩ := bindR_next h
  obtain ⟨m1, hset, h⟩ := bindM_next h
  injection h with h1
  subst h1
  show WF m1
  exact setVal_wf hm (notVal_lt a) hset

theorem rmem_wf {m m' : Machine} (hm : WF m)
    (h : Machine.rmem m = .next m') : WF m' := by
  unfold Machine.rmem at h
  obtain ⟨dest, hdest, h⟩ := bindR_next h
  obtain ⟨addr, haddr, h⟩ := bindR_next h
  obtain ⟨a, ha, h⟩ := bindR_next h
  obtain ⟨m1, hset, h⟩ := bindM_next h
  injection h with h1
  subst h1
  show WF m1
  exact setVal_wf hm (memRead_lt hm ha) hset

theorem wmem_wf {m m' : Machine} (hm : WF m)
    (h : Machine.wmem m = .next m') : WF m' := by
  unfold Machine.wmem at h
  obtain ⟨dest, hdest, h⟩ := bindR_next h
  obtain ⟨a, ha, h⟩ := bindR_next h
  split at h
  · injection h with h1
    subst h1
    exact ⟨updf_lt hm.1 (getVal_lt hm ha) _, hm.2.1, hm.2.2.1, hm.2.2.2⟩
  · exact StepResult.noConfusion h

theorem call_wf {m m' : Machine} (hm : WF m)
    (h : Machine.call m = .next m') : WF m' := by
  unfold Machine.call at h
  obtain ⟨dest, hdest, h⟩ := bindR_next h
  injection h with h1
  subst h1
  exact ⟨hm.1, hm.2.1, stack_cons_lt hm.2.2.1 (w16_lt _), hm.2.2.2⟩

theorem ret_wf {m m' : Machine} (hm : WF m) (h : Machine.ret m = .next m') :
    WF m' := by
  unfold Machine.ret at h
  cases hstk : m.stack with
  | nil => rw [hstk] at h; exact StepResult.noConfusion h
  | cons d rest =>
    rw [hstk] at h
    injection h with h1
    subst h1
    exact ⟨hm.1, hm.2.1,
      fun x hx => hm.2.2.1 x (by rw [hstk]; exact List.mem_cons_of_mem d hx),
      hm.2.2.2⟩

theorem out_wf {m m' : Machine} (hm : WF m) (h : Machine.out m = .next m') :
    WF m' := by
  unfold Machine.out at h
  obtain ⟨val, hval, h⟩ := bindR_next h
  injection h with h1
  subst h1
  exact hm

theorem inChar_wf {m m' : Machine} (hm : WF m)
    (h : Machine.inChar m = .next m') : WF m' := by
  unfold Machine.inChar at h
  obtain ⟨dest, hdest, h⟩ := bindR_next h
  have hm0 : WF { m with input := m.input.tail } :=
    ⟨hm.1, hm.2.1, hm.2.2.1, tail_lt hm.2.2.2⟩
  split at h
  · obtain ⟨m1, hset, h⟩ := bindM_next h
    injection h with h1
    subst h1
    show WF m1
    exact setVal_wf hm0 (headD_lt hm.2.2.2) hset
  · injection h with h1
    subst h1
    exact hm0

theorem noop_wf {m m' : Machine} (hm : WF m)
    (h : Machine.noop m = .next m') : WF m' := by
  unfold Machine.noop at h
  injection h with h1
  subst h1
  exact hm

/-- Every successful step preserves well-formedness. -/
theorem next_wf {m m' : Machine} (hm : WF m)
    (h : Machine.next m = .next m') : WF m' := by
  unfold Machine.next at h
  obtain ⟨op, hop, h⟩ := bindR_next h
  unfold dispatch at h
  by_cases h0 : op = 0
  · rw [if_pos h0] at h; exact StepResult.noConfusion h
  rw [if_neg h0] at h
  by_cases h1 : op = 1
  · rw [if_pos h1] at h; exact set_wf hm h
  rw [if_neg h1] at h
  by_cases h2 : op = 2
  · rw [if_pos h2] at h; exact push_wf hm h
  rw [if_neg h2] at h
  by_cases h3 : op = 3
  · rw [if_pos h3] at h; exact pop_wf hm h
  rw [if_neg h3] at h
  by_cases h4 : op = 4
  · rw [if_pos h4] at h; exact eq_wf hm h
  rw [if_neg h4] at h
  by_cases h5 : op = 5
  · rw [if_pos h5] at h; exact gt_wf hm h
  rw [if_neg h5] at h
  by_cases h6 : op = 6
  · rw [if_pos h6] at h; exact jump_wf hm h
  rw [if_neg h6] at h
  by_cases h7 : op = 7
  · rw [if_pos h7] at h; exact jt_wf hm h
  rw [if_neg h7] at h
  by_cases h8 : op = 8
  · rw [if_pos h8] at h; exact jf_wf hm h
  rw [if_neg h8] at h
  by_cases h9 : op = 9
  · rw [if_pos h9] at h; exact add_wf hm h
  rw [if_neg h9] at h
  by_cases h10 : op = 10
  · rw [if_pos h10] at h; exact mult_wf hm h
  rw [if_neg h10] at h
  by_cases h11 : op = 11
  · rw [if_pos h11] at h; exact mod_wf hm h
  rw [if_neg h11] at h
  by_cases h12 : op = 12
  · rw [if_pos h12] at h; exact and_wf hm h
  rw [if_neg h12] at h
  by_cases h13 : op = 13
  · rw [if_pos h13] at h; exact or_wf hm h
  rw [if_neg h13] at h
  by_cases h14 : op = 14
  · rw [if_pos h14] at h; exact not_wf hm h
  rw [if_neg h14] at h
  by_cases h15 : op = 15
  · rw [if_pos h15] at h; exact rmem_wf hm h
  rw [if_neg h15] at h
  by_cases h16 : op = 16
  · rw [if_pos h16] at h; exact wmem_wf hm h
  rw [if_neg h16] at h
  by_cases h17 : op = 17
  · rw [if_pos h17] at h; exact call_wf hm h
  rw [if_neg h17] at h
  by_cases h18 : op = 18
  · rw [if_pos h18] at h; exact ret_wf hm h
  rw [if_neg h18] at h
  by_cases h19 : op = 19
  · rw [if_pos h19] at h; exact out_wf hm h
  rw [if_neg h19] at h
  by_cases h20 : op = 20
  · rw [if_pos h20] at h; exact inChar_wf hm h
  rw [if_neg h20] at h
  by_cases h21 : op = 21
  · rw [if_pos h21] at h; exact noop_wf hm h
  rw [if_neg h21] at h
  exact StepResult.noConfusion h

theorem reachable_wf {m0 m : Machine} (hm : WF m0) (h : Reachable m0 m) :
    WF m := by
  induction h with
  | refl => exact hm
  | tail h1 h2 ih => exact next_wf ih h2

/-- Image for the counterexample: `rmem 32768 3` at address 0 with the raw
word 40000 (which has the 16th bit set) stored at address 3. -/
def rmemImage : Nat → Nat := fun x =>
  if x = 0 then 15 else if x = 1 then 32768 else if x = 2 then 3 else
    if x = 3 then 40000 else 0

/-- State after one `rmem` step: register 0 holds the raw word 40000. -/
def rmemMachineAfter : Machine :=
  { memory := rmemImage, registers := updf (fun _ => 0) 0 40000,
    stack := [], ip := 3, input := [], output := [] }

/-- C10 is false as stated: one `rmem` step from a freshly loaded machine
copies the raw memory word 40000 (≥ 32768) into register 0, because
`rmem` transfers `m.memory[value(b)]` without any range reduction. -/
theorem registers_word_range_counterexample :
    ¬ (∀ mach, Reachable (loaded rmemImage) mach →
        ∀ i, i < 8 → mach.registers i < 32768) := by
  intro hclaim
  have hstep : StepsTo (loaded rmemImage) rmemMachineAfter := rfl
  have hlt := hclaim rmemMachineAfter
    (Relation.ReflTransGen.single hstep) 0 (by norm_num)
  have hval : rmemMachineAfter.registers 0 = 40000 := rfl
  rw [hval] at hlt
  exact absurd hlt (by norm_num)

/-- C10 (amended): in every state reachable from a well-formed machine
(all stored words `< 65536`, as the Go `uint16` typing and the image
loader guarantee), each register holds a value in `[0, 65535]`.  The
claimed `[0, 32767]` bound does not hold — `rmem` (and `pop` after a
wrapping `call`) can commit a raw word `≥ 32768` into a register, as
`registers_word_range_counterexample` shows. -/
theorem registers_uint16_invariant (m0 mach : Machine) (hwf : WF m0)
    (h : Reachable m0 mach) : ∀ i, mach.registers i < 65536 :=
  fun i => (reachable_wf hwf h).2.1 i

/-- The freshly loaded counterexample machine is well-formed. -/
theorem rmem_loaded_wf : WF (loaded rmemImage) :=
  ⟨fun a => by
      unfold loaded rmemImage
      dsimp only
      repeat' split
      all_goals norm_num,
   fun _ => show (0:Nat) < 65536 by norm_num,
   fun x hx => absurd hx (List.not_mem_nil x),
   fun x hx => absurd hx (List.not_mem_nil x)⟩

/-- Concrete instance of `registers_uint16_invariant`: after the `rmem`
step above, register 0 holds 40000, which is `< 65536` (but not
`< 32768`). -/
theorem registers_uint16_invariant_witness :
    WF (loaded rmemImage) ∧ rmemMachineAfter.registers 0 < 65536 :=
  ⟨rmem_loaded_wf,
   registers_uint16_invariant (loaded rmemImage) rmemMachineAfter
     rmem_loaded_wf (Relation.ReflTransGen.single rfl) 0⟩
